import Mathlib

/-!
Verification of the transcript-sanitizer pipeline (`transcript_cleaner.py`).

Strings are modelled as `List Char`.  Every Python function of the logical
core (entity decoding, whitespace collapsing, punctuation spacing, tag
stripping, stripping, speaker/dialogue extraction, grouping, and the two
renderers) is embedded as a computable Lean function that mirrors the source
line by line.  The wall-clock timestamp written into the headers is modelled
as an explicit parameter `now`, and file contents are passed as values.
-/

set_option autoImplicit false

namespace TranscriptCleaner

/-- Whitespace test mirroring Python's `\s` character class and `str.strip`
on the characters that can realistically occur in transcript text
(ASCII whitespace plus NBSP). -/
def isWs (c : Char) : Bool :=
  c = ' ' || c = '\t' || c = '\n' || c = '\r' || c = '\x0b' || c = '\x0c' || c = '\xA0'

/-- Punctuation set of the source regex `\s+([.,!?;:])`. -/
def isPunct (c : Char) : Bool :=
  c = '.' || c = ',' || c = '!' || c = '?' || c = ';' || c = ':'

/-- Model of `html.unescape` restricted to the named character references
`&amp;` `&lt;` `&gt;` `&quot;` (with semicolon).  Like the real function it
scans left to right, rewrites a recognised reference into its character
without re-scanning the produced character, and leaves every string that
contains no `&` unchanged. -/
def unescapeModel : List Char → List Char
  | [] => []
  | '&' :: 'a' :: 'm' :: 'p' :: ';' :: rest => '&' :: unescapeModel rest
  | '&' :: 'l' :: 't' :: ';' :: rest => '<' :: unescapeModel rest
  | '&' :: 'g' :: 't' :: ';' :: rest => '>' :: unescapeModel rest
  | '&' :: 'q' :: 'u' :: 'o' :: 't' :: ';' :: rest => '"' :: unescapeModel rest
  | c :: rest => c :: unescapeModel rest

/-- Embedding of `re.sub(r'\s+', ' ', text)`: every maximal run of
whitespace becomes one single space. -/
def collapseWs : List Char → List Char
  | [] => []
  | [c] => if isWs c then [' '] else [c]
  | c :: d :: rest =>
    if isWs c then
      if isWs d then collapseWs (d :: rest)
      else ' ' :: d :: collapseWs rest
    else c :: collapseWs (d :: rest)

/-- Worker for `punctFix`: `pend` is the whitespace run read so far but not
yet emitted.  A run followed by a punctuation character from `isPunct` is
dropped (the regex match `\s+([.,!?;:])` is replaced by the punctuation
character); any other run is emitted unchanged. -/
def punctFixAux (pend : List Char) : List Char → List Char
  | [] => pend
  | c :: rest =>
    if isWs c then punctFixAux (pend ++ [c]) rest
    else if isPunct c && !pend.isEmpty then c :: punctFixAux [] rest
    else pend ++ c :: punctFixAux [] rest

/-- Embedding of `re.sub(r'\s+([.,!?;:])', r'\1', text)`. -/
def punctFix (l : List Char) : List Char :=
  punctFixAux [] l

/-- Worker for `removeTags`: `buf` is either empty or `'<'` followed by the
`>`-free characters read since it.  On reading `>` with at least one
buffered content character, the whole buffer and the `>` are dropped —
exactly the leftmost non-overlapping matches of `<[^>]+>`.  A bare `<>`
(no content) does not match the regex and is emitted verbatim. -/
def removeTagsAux (buf : List Char) : List Char → List Char
  | [] => buf
  | c :: rest =>
    if buf.isEmpty then
      if c = '<' then removeTagsAux ['<'] rest
      else c :: removeTagsAux [] rest
    else
      if c = '>' then
        if buf.length ≤ 1 then buf ++ '>' :: removeTagsAux [] rest
        else removeTagsAux [] rest
      else removeTagsAux (buf ++ [c]) rest

/-- Embedding of `re.sub(r'<[^>]+>', '', text)`. -/
def removeTags (l : List Char) : List Char :=
  removeTagsAux [] l

/-- Embedding of `str.strip()`: drop leading and trailing whitespace. -/
def strip (l : List Char) : List Char :=
  ((l.dropWhile isWs).reverse.dropWhile isWs).reverse

/-- Embedding of `TranscriptCleaner.clean_text`: entity decoding, whitespace
collapapsing, punctuation spacing, tag stripping, strip — in source order. -/
def clean_text (text : List Char) : List Char :=
  strip (removeTags (punctFix (collapseWs (unescapeModel text))))

/-- Boolean test: no `>` occurs in the list. -/
def noGt : List Char → Bool
  | [] => true
  | c :: rest => !(c = '>') && noGt rest

/-- Helper for `noTagB`: the text after a `<` cannot close a `<[^>]+>`
match, i.e. it either starts with `>` immediately or contains no `>` at
all. -/
def headOkB : List Char → Bool
  | [] => true
  | d :: rest => d = '>' || noGt (d :: rest)

/-- Boolean test: the list contains no substring matching `<[^>]+>`. -/
def noTagB : List Char → Bool
  | [] => true
  | c :: rest => (if c = '<' then headOkB rest else true) && noTagB rest

/-! ### Speaker grouping -/

/-- Insert one cleaned utterance: append the text to the first group with
this speaker, or add a new group at the end.  This models the insertion
behaviour of the Python dict in `organize_by_speaker` (insertion order of
first appearance preserved, per-speaker lists grow at the end). -/
def addUtt (acc : List (List Char × List (List Char))) (sp txt : List Char) :
    List (List Char × List (List Char)) :=
  match acc with
  | [] => [(sp, [txt])]
  | g :: rest =>
    if g.1 = sp then (g.1, g.2 ++ [txt]) :: rest else g :: addUtt rest sp txt

/-- Loop of `organize_by_speaker`: clean each dialogue, drop the empty ones,
insert the rest. -/
def organizeAux (acc : List (List Char × List (List Char))) :
    List (List Char × List Char) → List (List Char × List (List Char))
  | [] => acc
  | p :: rest =>
    if clean_text p.2 = [] then organizeAux acc rest
    else organizeAux (addUtt acc p.1 (clean_text p.2)) rest

/-- Embedding of `TranscriptCleaner.organize_by_speaker`. -/
def organize_by_speaker (t : List (List Char × List Char)) :
    List (List Char × List (List Char)) :=
  organizeAux [] t

/-- Texts stored for a given speaker (empty list when absent). -/
def groupTexts (sp : List Char) :
    List (List Char × List (List Char)) → List (List Char)
  | [] => []
  | g :: rest => if g.1 = sp then g.2 else groupTexts sp rest

/-- All (speaker, text) pairs of the grouped structure, in group order. -/
def flattenGroups (gs : List (List Char × List (List Char))) :
    List (List Char × List Char) :=
  gs.flatMap fun g => g.2.map fun x => (g.1, x)

/-- The transcript after cleaning, restricted to non-empty cleaned texts. -/
def cleanedPairs (t : List (List Char × List Char)) :
    List (List Char × List Char) :=
  (t.map fun p => (p.1, clean_text p.2)).filter fun p => !p.2.isEmpty

/-- Cleaned non-empty texts of one speaker, in transcript order. -/
def specTexts (sp : List Char) (t : List (List Char × List Char)) :
    List (List Char) :=
  (cleanedPairs t).filterMap fun p => if p.1 = sp then some p.2 else none

/-- Keep-first deduplication, used to state first-appearance order of
speakers. -/
def dedupFirstAux (seen : List (List Char)) :
    List (List Char) → List (List Char)
  | [] => []
  | x :: rest =>
    if x ∈ seen then dedupFirstAux seen rest
    else x :: dedupFirstAux (seen ++ [x]) rest

/-- Keep-first deduplication of a list of speaker names. -/
def dedupFirst (l : List (List Char)) : List (List Char) :=
  dedupFirstAux [] l

/-! ### Renderers -/

/-- Decimal digits of a number, as written by Python string formatting. -/
def natChars (n : Nat) : List Char :=
  (Nat.repr n).toList

/-- Join output lines with newline characters ("\n".join in the source). -/
def joinNL (ls : List (List Char)) : List Char :=
  List.intercalate ['\n'] ls

/-- Header block of the by-speaker rendering.  The timestamp printed by
`datetime.now().strftime(...)` is the parameter `now`. -/
def groupHeader (now fname : List Char) : List (List Char) :=
  [("TRANSCRIPT: ").toList ++ fname, ("Generated: ").toList ++ now,
    List.replicate 80 '=', []]

/-- Header block of the chronological rendering. -/
def chronHeader (now fname : List Char) : List (List Char) :=
  [("TRANSCRIPT (CHRONOLOGICAL): ").toList ++ fname, ("Generated: ").toList ++ now,
    List.replicate 80 '=', []]

/-- Numbered body of one speaker group in `format_output`: the source
re-cleans each stored dialogue, skips it when the re-cleaned text is empty,
and prints `enumerate(dialogues, 1)` indices. -/
def groupBody (ds : List (List Char)) : List (List Char) :=
  (List.enumFrom 1 ds).foldl (fun acc x =>
    if clean_text x.2 = [] then acc
    else acc ++ [natChars x.1 ++ (". ").toList ++ clean_text x.2]) []

/-- Body of `format_chronological_output`: `enumerate(transcript, 1)`
indices, empty-after-cleaning entries skipped, every emitted line followed
by one blank line. -/
def chronBody (t : List (List Char × List Char)) : List (List Char) :=
  (List.enumFrom 1 t).foldl (fun acc x =>
    if clean_text x.2.2 = [] then acc
    else acc ++ [natChars x.1 ++ (". ").toList ++ x.2.1 ++ (": ").toList ++
      clean_text x.2.2, []]) []

/-- Line-level embedding of `TranscriptCleaner.format_output`: header, then
per speaker a `SPEAKER:` line, a dash separator, the numbered dialogues and
a blank line. -/
def format_output_lines (now fname : List Char)
    (speakers : List (List Char × List (List Char))) : List (List Char) :=
  speakers.foldl (fun acc g =>
    ((List.enumFrom 1 g.2).foldl (fun a2 x =>
      if clean_text x.2 = [] then a2
      else a2 ++ [natChars x.1 ++ (". ").toList ++ clean_text x.2])
      (acc ++ [("SPEAKER: ").toList ++ g.1, List.replicate 40 '-'])) ++ [[]])
    (groupHeader now fname)

/-- Embedding of `TranscriptCleaner.format_output` (joined text). -/
def format_output (now fname : List Char)
    (speakers : List (List Char × List (List Char))) : List Char :=
  joinNL (format_output_lines now fname speakers)

/-- Line-level embedding of `format_chronological_output`. -/
def format_chronological_lines (now fname : List Char)
    (t : List (List Char × List Char)) : List (List Char) :=
  (List.enumFrom 1 t).foldl (fun acc x =>
    if clean_text x.2.2 = [] then acc
    else acc ++ [natChars x.1 ++ (". ").toList ++ x.2.1 ++ (": ").toList ++
      clean_text x.2.2, []]) (chronHeader now fname)

/-- Embedding of `TranscriptCleaner.format_chronological_output`. -/
def format_chronological_output (now fname : List Char)
    (t : List (List Char × List Char)) : List Char :=
  joinNL (format_chronological_lines now fname t)

/-- Chronological body as the specification describes it: only emitted
(non-empty) entries carry numbers, renumbered consecutively from 1.  This
definition follows the words of the specification and is compared against
the body the code produces. -/
def specRenumberedChronBody (t : List (List Char × List Char)) :
    List (List Char) :=
  (List.enumFrom 1 (t.filterMap fun p =>
      if clean_text p.2 = [] then none else some (p.1, clean_text p.2))).flatMap
    fun x => [natChars x.1 ++ (". ").toList ++ x.2.1 ++ (": ").toList ++ x.2.2, []]

/-- Group body as the specification describes it: every stored utterance of
the group emitted, numbered consecutively from 1.  Spec-side definition for
comparison with `groupBody`. -/
def specAllGroupBody (ds : List (List Char)) : List (List Char) :=
  (List.enumFrom 1 ds).map fun x => natChars x.1 ++ (". ").toList ++ x.2

/-! ### Extraction: the three regular expressions of the source

The three patterns of `extract_speaker_and_text` are embedded as explicit
backtracking matchers over `List Char`.  Character classes `[^x]*` followed
by the single character `x` (`[^"]*"`, `[^>]*>`, `[^<]+</span>`) admit
exactly one way to match — through the first occurrence of `x` — and are
implemented directly; a class-star followed by a longer literal
(`[^>]*data-...`) genuinely backtracks and uses `greedyStar`; the lazy
dot-star of `re.DOTALL` patterns tries the shortest extension first
(`lazyScan`, also used for the position scan of `re.search`). -/

/-- Literal prefix test on character lists. -/
def startsWithL : List Char → List Char → Bool
  | [], _ => true
  | _ :: _, [] => false
  | p :: ps, c :: cs => p = c && startsWithL ps cs

/-- Consume a literal, or fail. -/
def dropLit (pat l : List Char) : Option (List Char) :=
  if startsWithL pat l then some (l.drop pat.length) else none

/-- Greedy class-star with backtracking continuation: consume as many
characters satisfying `p` as possible, retrying the continuation on ever
shorter prefixes. -/
def greedyStar {α : Type} (p : Char → Bool) (k : List Char → Option α) :
    List Char → Option α
  | [] => k []
  | c :: rest =>
    if p c then (greedyStar p k rest) <|> k (c :: rest) else k (c :: rest)

/-- Lazy dot-star with continuation (`.*?` under DOTALL, and the position
scan of `re.search`): try the continuation here first, else move right. -/
def lazyScan {α : Type} (k : List Char → Option α) : List Char → Option α
  | [] => k []
  | c :: rest => k (c :: rest) <|> lazyScan k rest

/-- Consume through the first `"` — the only way `[^"]*"` can match. -/
def thruQuote : List Char → Option (List Char)
  | [] => none
  | c :: rest => if c = '"' then some rest else thruQuote rest

/-- Consume through the first `>` — the only way `[^>]*>` can match. -/
def thruGt : List Char → Option (List Char)
  | [] => none
  | c :: rest => if c = '>' then some rest else thruGt rest

/-- Split at the first occurrence of a literal: lazy `(.*?)lit` with
nothing after it.  Returns the text before and the remainder after. -/
def splitFirstLit (pat : List Char) : List Char → Option (List Char × List Char)
  | [] => if startsWithL pat [] then some ([], []) else none
  | c :: rest =>
    if startsWithL pat (c :: rest) then some ([], (c :: rest).drop pat.length)
    else (splitFirstLit pat rest).map fun pr => (c :: pr.1, pr.2)

/-- Capture `([^<]+)` followed by a literal starting with `<`: the nonempty
run up to the first `<` must be followed by the closing literal. -/
def capToLtThen (close : List Char) (l : List Char) :
    Option (List Char × List Char) :=
  if l.takeWhile (fun c => c != '<') = [] then none
  else (dropLit close (l.dropWhile fun c => c != '<')).map
    fun r => (l.takeWhile fun c => c != '<', r)

/-- Rest of the paragraph open tag after the literal `<p`:
`[^>]*data-index="[^"]*"[^>]*>`. -/
def matchPOpenRest (l : List Char) : Option (List Char) :=
  greedyStar (fun c => c != '>')
    (fun m => (dropLit ("data-index=\"").toList m).bind
      fun m2 => (thruQuote m2).bind thruGt) l

/-- One match of `<p[^>]*data-index="[^"]*"[^>]*>(.*?)</p>` (DOTALL) at the
current position: the captured body and the remainder after `</p>`. -/
def matchPara (l : List Char) : Option (List Char × List Char) :=
  (dropLit ("<p").toList l).bind fun m =>
    (matchPOpenRest m).bind fun body => splitFirstLit (("</p>").toList) body

/-- Non-overlapping left-to-right scan of `re.findall` for the paragraph
pattern; `fuel` bounds the scan, `l.length` suffices since every match
consumes at least one character. -/
def scanParas : Nat → List Char → List (List Char)
  | 0, _ => []
  | _, [] => []
  | fuel+1, c :: rest =>
    match matchPara (c :: rest) with
    | some (content, rest2) => content :: scanParas fuel rest2
    | none => scanParas fuel rest

/-- `re.findall(paragraph_pattern, html_content, re.DOTALL)`. -/
def findParagraphs (doc : List Char) : List (List Char) :=
  scanParas doc.length doc

/-- Match of
`<span[^>]*data-speaker="true"[^>]*>.*?<span>([^<]+)</span>` at the current
position, returning group 1. -/
def speakerHere (l : List Char) : Option (List Char) :=
  (dropLit ("<span").toList l).bind fun m =>
    (greedyStar (fun c => c != '>')
      (fun m2 => (dropLit ("data-speaker=\"true\"").toList m2).bind thruGt) m).bind
      (lazyScan fun m4 => (dropLit ("<span>").toList m4).bind
        fun m5 => (capToLtThen (("</span>").toList) m5).map Prod.fst)

/-- `re.search` of the speaker pattern: leftmost matching position. -/
def findSpeaker (p : List Char) : Option (List Char) :=
  lazyScan speakerHere p

/-- Match of the dialogue pattern
`<span[^>]*data-clipped="[^"]*"[^>]*data-speaker="false"[^>]*>([^<]+)</span>`
at the current position: group 1 and the remainder. -/
def dialogHere (l : List Char) : Option (List Char × List Char) :=
  (dropLit ("<span").toList l).bind fun m =>
    (greedyStar (fun c => c != '>')
      (fun m2 => (dropLit ("data-clipped=\"").toList m2).bind fun m3 =>
        (thruQuote m3).bind fun m4 =>
          greedyStar (fun c => c != '>')
            (fun m5 => (dropLit ("data-speaker=\"false\"").toList m5).bind thruGt)
            m4) m).bind
      fun m6 => capToLtThen (("</span>").toList) m6

/-- Non-overlapping scan of `re.findall` for the dialogue pattern. -/
def scanDialogs : Nat → List Char → List (List Char)
  | 0, _ => []
  | _, [] => []
  | fuel+1, c :: rest =>
    match dialogHere (c :: rest) with
    | some (cap, rest2) => cap :: scanDialogs fuel rest2
    | none => scanDialogs fuel rest

/-- `re.findall(dialogue_pattern, paragraph)`. -/
def findDialogues (p : List Char) : List (List Char) :=
  scanDialogs p.length p

/-- `' '.join(dialogue_spans)`. -/
def joinSpaces (ls : List (List Char)) : List Char :=
  List.intercalate [' '] ls

/-- Embedding of `TranscriptCleaner.extract_speaker_and_text`: for each
paragraph, search the speaker pattern; when it matches, collect the
dialogue spans; when at least one exists, append the stripped speaker name
with the space-joined dialogue text. -/
def extract_speaker_and_text (doc : List Char) : List (List Char × List Char) :=
  (findParagraphs doc).foldl (fun tr p =>
    match findSpeaker p with
    | none => tr
    | some name =>
      if findDialogues p = [] then tr
      else tr ++ [(strip name, joinSpaces (findDialogues p))]) []

/-- Per-paragraph contribution used to characterise the extractor. -/
def paraUtterance (p : List Char) : Option (List Char × List Char) :=
  match findSpeaker p with
  | none => none
  | some name =>
    if findDialogues p = [] then none
    else some (strip name, joinSpaces (findDialogues p))

/-! ### Per-file orchestration -/

/-- Pure core of `process_file`: `none` models the soft-failure paths that
return `False` before writing anything (no utterances, or no non-empty
speaker groups); `some` carries the two output texts that get written. -/
def process_file (now fname content : List Char) :
    Option (List Char × List Char) :=
  let transcript := extract_speaker_and_text content
  if transcript = [] then none
  else
    let speakers := organize_by_speaker transcript
    if speakers = [] then none
    else some (format_output now fname speakers,
      format_chronological_output now fname transcript)

/-- One step of the batch loop: update (successes, failures, outputs) with
the result of one file. -/
def processStep (now : List Char)
    (res : Nat × Nat × List (List Char × (List Char × List Char)))
    (g : List Char × List Char) :
    Nat × Nat × List (List Char × (List Char × List Char)) :=
  match process_file now g.1 g.2 with
  | some outs => (res.1 + 1, res.2.1, res.2.2 ++ [(g.1, outs)])
  | none => (res.1, res.2.1 + 1, res.2.2)

/-- Batch loop of `process_all_files` over (filename, content) pairs:
counts successes and failures and collects the written outputs. -/
def process_all_files (now : List Char)
    (files : List (List Char × List Char)) :
    Nat × Nat × List (List Char × (List Char × List Char)) :=
  files.foldl (processStep now) (0, 0, [])

/-- Sample document containing one segment whose speaker span holds only a
single space and one clipped non-speaker dialogue span holding `hi`. -/
def whitespaceSpeakerDoc : List Char :=
  ("<p data-index=\"0\"><span data-speaker=\"true\"><span> </span></span>" ++
    "<span data-clipped=\"true\" data-speaker=\"false\">hi</span></p>").toList

/-! ### Normal forms of the cleaning pipeline -/

/-- Every whitespace character of the list is a plain space. -/
def WsSp (l : List Char) : Prop := ∀ c ∈ l, isWs c = true → c = ' '

/-- No two adjacent whitespace characters. -/
def NoTwoWs (l : List Char) : Prop :=
  l.Chain' fun a b => ¬(isWs a = true ∧ isWs b = true)

/-- No whitespace character directly before a punctuation character. -/
def NoWsPt (l : List Char) : Prop :=
  l.Chain' fun a b => ¬(isWs a = true ∧ isPunct b = true)

/-- Decomposition of a list around its stripped core. -/
theorem strip_decomp (l : List Char) : ∃ u v, l = u ++ strip l ++ v := by
  refine ⟨l.takeWhile isWs, ((l.dropWhile isWs).reverse.takeWhile isWs).reverse, ?_⟩
  have h1 := List.takeWhile_append_dropWhile isWs l
  have h2 := List.takeWhile_append_dropWhile isWs (l.dropWhile isWs).reverse
  have h3 : l.dropWhile isWs =
      strip l ++ ((l.dropWhile isWs).reverse.takeWhile isWs).reverse := by
    conv_lhs => rw [← List.reverse_reverse (l.dropWhile isWs), ← h2]
    rw [List.reverse_append]
    rfl
  conv_lhs => rw [← h1]
  conv_lhs => rw [h3]
  rw [List.append_assoc]

theorem unescapeModel_id (s : List Char) (h : '&' ∉ s) : unescapeModel s = s := by
  induction s using unescapeModel.induct
  case case1 => rfl
  all_goals simp_all [unescapeModel]

theorem mem_collapseWs (l : List Char) (x : Char) (hx : x ∈ collapseWs l) :
    x ∈ l ∨ x = ' ' := by
  induction l using collapseWs.induct with
  | case1 => simp [collapseWs] at hx
  | case2 c h =>
    rw [show collapseWs [c] = [' '] by simp [collapseWs, h]] at hx
    simp at hx
    exact Or.inr hx
  | case3 c h =>
    have h0 : isWs c = false := by simpa using h
    rw [show collapseWs [c] = [c] by simp [collapseWs, h0]] at hx
    simp at hx
    exact Or.inl (by simp [hx])
  | case4 c d rest h1 h2 ih =>
    rw [show collapseWs (c :: d :: rest) = collapseWs (d :: rest) by
      simp [collapseWs, h1, h2]] at hx
    rcases ih hx with h | h
    · exact Or.inl (List.mem_cons_of_mem c h)
    · exact Or.inr h
  | case5 c d rest h1 h2 ih =>
    have h2f : isWs d = false := by simpa using h2
    rw [show collapseWs (c :: d :: rest) = ' ' :: d :: collapseWs rest by
      simp [collapseWs, h1, h2f]] at hx
    rcases List.mem_cons.mp hx with h | h
    · exact Or.inr h
    · rcases List.mem_cons.mp h with h | h
      · exact Or.inl (by simp [h])
      · rcases ih h with h | h
        · exact Or.inl (by simp [h])
        · exact Or.inr h
  | case6 c d rest h1 ih =>
    have h1f : isWs c = false := by simpa using h1
    rw [show collapseWs (c :: d :: rest) = c :: collapseWs (d :: rest) by
      simp [collapseWs, h1f]] at hx
    rcases List.mem_cons.mp hx with h | h
    · exact Or.inl (by simp [h])
    · rcases ih h with h2 | h2
      · exact Or.inl (List.mem_cons_of_mem c h2)
      · exact Or.inr h2

theorem mem_punctFixAux (pend l : List Char) (x : Char)
    (hx : x ∈ punctFixAux pend l) : x ∈ pend ∨ x ∈ l := by
  induction pend, l using punctFixAux.induct with
  | case1 p => simp [punctFixAux] at hx; exact Or.inl hx
  | case2 p c rest hw ih =>
    simp only [punctFixAux, hw, if_pos] at hx
    rcases ih hx with h | h
    · rcases List.mem_append.mp h with h | h
      · exact Or.inl h
      · simp at h; exact Or.inr (by simp [h])
    · exact Or.inr (List.mem_cons_of_mem c h)
  | case3 p c rest hw hp ih =>
    rw [show punctFixAux p (c :: rest) = c :: punctFixAux [] rest by
      simp [punctFixAux, hw, hp]] at hx
    rcases List.mem_cons.mp hx with h | h
    · exact Or.inr (by simp [h])
    · rcases ih h with h2 | h2
      · simp at h2
      · exact Or.inr (List.mem_cons_of_mem c h2)
  | case4 p c rest hw hp ih =>
    rw [show punctFixAux p (c :: rest) = p ++ c :: punctFixAux [] rest by
      simp [punctFixAux, hw, hp]] at hx
    rcases List.mem_append.mp hx with h | h
    · exact Or.inl h
    · rcases List.mem_cons.mp h with h2 | h2
      · exact Or.inr (by simp [h2])
      · rcases ih h2 with h3 | h3
        · simp at h3
        · exact Or.inr (List.mem_cons_of_mem c h3)

theorem mem_strip (l : List Char) (x : Char) (hx : x ∈ strip l) : x ∈ l := by
  obtain ⟨u, v, hd⟩ := strip_decomp l
  rw [hd]
  simp [hx]

theorem removeTagsAux_nil_cons (c : Char) (rest : List Char) :
    removeTagsAux [] (c :: rest) =
      if c = '<' then removeTagsAux ['<'] rest else c :: removeTagsAux [] rest := rfl

theorem removeTagsAux_cons_cons (b : Char) (bs : List Char) (c : Char)
    (rest : List Char) :
    removeTagsAux (b :: bs) (c :: rest) =
      if c = '>' then
        if (b :: bs).length ≤ 1 then (b :: bs) ++ '>' :: removeTagsAux [] rest
        else removeTagsAux [] rest
      else removeTagsAux ((b :: bs) ++ [c]) rest := rfl

theorem removeTagsAux_nil_id (l : List Char) (h : ∀ x ∈ l, x ≠ '<') :
    removeTagsAux [] l = l := by
  induction l with
  | nil => rfl
  | cons c rest ih =>
    have hc : c ≠ '<' := h c (List.mem_cons_self c rest)
    rw [removeTagsAux_nil_cons, if_neg hc, ih fun x hx => h x (List.mem_cons_of_mem c hx)]

theorem removeTags_id (l : List Char) (h : ∀ x ∈ l, x ≠ '<') :
    removeTags l = l := removeTagsAux_nil_id l h

theorem collapseWs_wssp (l : List Char) : WsSp (collapseWs l) := by
  unfold WsSp
  induction l using collapseWs.induct <;> simp_all [collapseWs] <;> tauto

theorem collapseWs_noTwo (l : List Char) : NoTwoWs (collapseWs l) := by
  unfold NoTwoWs
  induction l using collapseWs.induct with
  | case1 => simp [collapseWs]
  | case2 c h => rw [show collapseWs [c] = [' '] by simp [collapseWs, h]]; simp
  | case3 c h =>
    have h0 : isWs c = false := by simpa using h
    rw [show collapseWs [c] = [c] by simp [collapseWs, h0]]
    simp
  | case4 c d rest h1 h2 ih =>
    rw [show collapseWs (c :: d :: rest) = collapseWs (d :: rest) by
      simp [collapseWs, h1, h2]]
    exact ih
  | case5 c d rest h1 h2 ih =>
    have h2f : isWs d = false := by simpa using h2
    rw [show collapseWs (c :: d :: rest) = ' ' :: d :: collapseWs rest by
      simp [collapseWs, h1, h2f]]
    rw [List.chain'_cons']
    refine ⟨fun y hy => by simp at hy; simp [← hy, h2f], ?_⟩
    rw [List.chain'_cons']
    exact ⟨fun y hy => by simp [h2f], ih⟩
  | case6 c d rest h1 ih =>
    have h1f : isWs c = false := by simpa using h1
    rw [show collapseWs (c :: d :: rest) = c :: collapseWs (d :: rest) by
      simp [collapseWs, h1f]]
    rw [List.chain'_cons']
    exact ⟨fun y _ => by simp [h1f], ih⟩

theorem punctFixAux_nil_nonws (c : Char) (rest : List Char) (h : isWs c = false) :
    punctFixAux [] (c :: rest) = c :: punctFixAux [] rest := by
  simp [punctFixAux, h]

theorem punctFixAux_nil_ws (c : Char) (rest : List Char) (h : isWs c = true) :
    punctFixAux [] (c :: rest) = punctFixAux [c] rest := by
  simp [punctFixAux, h]

theorem punctFixAux_single_punct (c d : Char) (rest : List Char)
    (hd : isWs d = false) (hp : isPunct d = true) :
    punctFixAux [c] (d :: rest) = d :: punctFixAux [] rest := by
  simp [punctFixAux, hd, hp]

theorem punctFixAux_single_other (c d : Char) (rest : List Char)
    (hd : isWs d = false) (hp : isPunct d = false) :
    punctFixAux [c] (d :: rest) = c :: d :: punctFixAux [] rest := by
  simp [punctFixAux, hd, hp]

theorem noTwoWs_nil : NoTwoWs [] := List.chain'_nil

theorem noWsPt_nil : NoWsPt [] := List.chain'_nil

theorem noTwoWs_single (c : Char) : NoTwoWs [c] := List.chain'_singleton c

theorem noWsPt_single (c : Char) : NoWsPt [c] := List.chain'_singleton c

theorem punctFix_cons_nonws (c : Char) (rest : List Char) (h : isWs c = false) :
    punctFix (c :: rest) = c :: punctFix rest := punctFixAux_nil_nonws c rest h

theorem punctFix_cons_ws (c : Char) (rest : List Char) (h : isWs c = true) :
    punctFix (c :: rest) = punctFixAux [c] rest := punctFixAux_nil_ws c rest h

theorem punctFix_norm (n : Nat) :
    ∀ l : List Char, l.length ≤ n → WsSp l → NoTwoWs l →
      WsSp (punctFix l) ∧ NoTwoWs (punctFix l) ∧ NoWsPt (punctFix l) := by
  induction n with
  | zero =>
    intro l hn _ _
    have : l = [] := List.length_eq_zero.mp (Nat.le_zero.mp hn)
    subst this
    exact ⟨fun c hc => by simp [punctFix, punctFixAux] at hc, noTwoWs_nil, noWsPt_nil⟩
  | succ n ih =>
    intro l hn h1 h2
    match l with
    | [] =>
      exact ⟨fun c hc => by simp [punctFix, punctFixAux] at hc, noTwoWs_nil, noWsPt_nil⟩
    | c :: rest =>
      by_cases hw : isWs c = true
      · have hc : c = ' ' := h1 c (List.mem_cons_self _ _) hw
        match rest with
        | [] =>
          rw [show punctFix [c] = [c] by simp [punctFix, punctFixAux, hw]]
          refine ⟨fun x hx hwx => ?_, noTwoWs_single c, noWsPt_single c⟩
          simp at hx
          exact h1 x (by simp [hx]) hwx
        | d :: rest2 =>
          have hd : isWs d = false := by
            have := (List.chain'_cons.mp h2).1
            by_contra hcon
            simp at hcon
            exact this ⟨hw, hcon⟩
          have hlen : rest2.length ≤ n := by simp at hn; omega
          have h1r : WsSp rest2 := fun x hx hwx => h1 x (by simp [hx]) hwx
          have h2r : NoTwoWs rest2 :=
            (List.chain'_cons'.mp (List.chain'_cons.mp h2).2).2
          obtain ⟨ihW, ihT, ihP⟩ := ih rest2 hlen h1r h2r
          rw [punctFix_cons_ws c (d :: rest2) hw]
          by_cases hp : isPunct d = true
          · rw [punctFixAux_single_punct c d rest2 hd hp]
            refine ⟨?_, ?_, ?_⟩
            · intro x hx hwx
              rcases List.mem_cons.mp hx with h | h
              · exact absurd (h ▸ hwx) (by simp [hd])
              · exact ihW x h hwx
            · exact List.chain'_cons'.mpr ⟨fun y _ => by simp [hd], ihT⟩
            · exact List.chain'_cons'.mpr ⟨fun y _ => by simp [hd], ihP⟩
          · have hpf : isPunct d = false := by simpa using hp
            rw [punctFixAux_single_other c d rest2 hd hpf]
            refine ⟨?_, ?_, ?_⟩
            · intro x hx hwx
              rcases List.mem_cons.mp hx with h | h
              · rw [h, hc]
              · rcases List.mem_cons.mp h with h3 | h3
                · exact absurd (h3 ▸ hwx) (by simp [hd])
                · exact ihW x h3 hwx
            · refine List.chain'_cons'.mpr ⟨fun y hy => ?_, ?_⟩
              · simp at hy
                simp [← hy, hd]
              · exact List.chain'_cons'.mpr ⟨fun y _ => by simp [hd], ihT⟩
            · refine List.chain'_cons'.mpr ⟨fun y hy => ?_, ?_⟩
              · simp at hy
                simp [← hy, hpf]
              · exact List.chain'_cons'.mpr ⟨fun y _ => by simp [hd], ihP⟩
      · have hwf : isWs c = false := by simpa using hw
        have hlen : rest.length ≤ n := by simp at hn; omega
        have h1r : WsSp rest := fun x hx hwx => h1 x (by simp [hx]) hwx
        have h2r : NoTwoWs rest := (List.chain'_cons'.mp h2).2
        obtain ⟨ihW, ihT, ihP⟩ := ih rest hlen h1r h2r
        rw [punctFix_cons_nonws c rest hwf]
        refine ⟨?_, ?_, ?_⟩
        · intro x hx hwx
          rcases List.mem_cons.mp hx with h | h
          · exact absurd (h ▸ hwx) (by simp [hwf])
          · exact ihW x h hwx
        · exact List.chain'_cons'.mpr ⟨fun y _ => by simp [hwf], ihT⟩
        · exact List.chain'_cons'.mpr ⟨fun y _ => by simp [hwf], ihP⟩

theorem punctFix_id (n : Nat) :
    ∀ l : List Char, l.length ≤ n → NoTwoWs l → NoWsPt l → punctFix l = l := by
  induction n with
  | zero =>
    intro l hn _ _
    have : l = [] := List.length_eq_zero.mp (Nat.le_zero.mp hn)
    subst this
    rfl
  | succ n ih =>
    intro l hn h2 h3
    match l with
    | [] => rfl
    | c :: rest =>
      by_cases hw : isWs c = true
      · match rest with
        | [] => simp [punctFix, punctFixAux, hw]
        | d :: rest2 =>
          have hd : isWs d = false := by
            have := (List.chain'_cons.mp h2).1
            by_contra hcon
            simp at hcon
            exact this ⟨hw, hcon⟩
          have hp : isPunct d = false := by
            have := (List.chain'_cons.mp h3).1
            by_contra hcon
            simp at hcon
            exact this ⟨hw, hcon⟩
          have hlen : rest2.length ≤ n := by simp at hn; omega
          have h2r : NoTwoWs rest2 :=
            (List.chain'_cons'.mp (List.chain'_cons.mp h2).2).2
          have h3r : NoWsPt rest2 :=
            (List.chain'_cons'.mp (List.chain'_cons.mp h3).2).2
          rw [punctFix_cons_ws c (d :: rest2) hw]
          rw [punctFixAux_single_other c d rest2 hd hp]
          rw [show punctFixAux [] rest2 = punctFix rest2 from rfl, ih rest2 hlen h2r h3r]
      · have hwf : isWs c = false := by simpa using hw
        have hlen : rest.length ≤ n := by simp at hn; omega
        rw [punctFix_cons_nonws c rest hwf]
        rw [ih rest hlen (List.chain'_cons'.mp h2).2 (List.chain'_cons'.mp h3).2]

theorem collapseWs_id (l : List Char) (h1 : WsSp l) (h2 : NoTwoWs l) :
    collapseWs l = l := by
  induction l using collapseWs.induct with
  | case1 => rfl
  | case2 c h =>
    rw [show collapseWs [c] = [' '] by simp [collapseWs, h]]
    rw [h1 c (List.mem_cons_self c []) h]
  | case3 c h =>
    have h0 : isWs c = false := by simpa using h
    simp [collapseWs, h0]
  | case4 c d rest hw1 hw2 ih =>
    exact absurd ⟨hw1, hw2⟩ (List.chain'_cons.mp h2).1
  | case5 c d rest hw1 hw2 ih =>
    have hc : c = ' ' := h1 c (List.mem_cons_self _ _) hw1
    have h2f : isWs d = false := by simpa using hw2
    rw [show collapseWs (c :: d :: rest) = ' ' :: d :: collapseWs rest by
      simp [collapseWs, hw1, h2f]]
    have hrest : collapseWs rest = rest := by
      apply ih
      · exact fun x hx hwx => h1 x (by simp [hx]) hwx
      · exact (List.chain'_cons'.mp (List.chain'_cons.mp h2).2).2
    rw [hrest, hc]
  | case6 c d rest hw1 ih =>
    have h1f : isWs c = false := by simpa using hw1
    rw [show collapseWs (c :: d :: rest) = c :: collapseWs (d :: rest) by
      simp [collapseWs, h1f]]
    congr 1
    apply ih
    · exact fun x hx hwx => h1 x (by simp [hx]) hwx
    · exact (List.chain'_cons.mp h2).2

theorem dropWhile_head_false {p : Char → Bool} (l : List Char) (c : Char)
    (h : (l.dropWhile p).head? = some c) : p c = false := by
  induction l with
  | nil => simp at h
  | cons a rest ih =>
    rw [List.dropWhile_cons] at h
    by_cases ha : p a = true
    · rw [if_pos ha] at h
      exact ih h
    · rw [if_neg ha] at h
      simp at h
      rw [← h]
      simpa using ha

theorem dropWhile_eq_self_of_head {p : Char → Bool} (l : List Char)
    (h : ∀ c, l.head? = some c → p c = false) : l.dropWhile p = l := by
  cases l with
  | nil => rfl
  | cons a rest =>
    rw [List.dropWhile_cons, if_neg]
    simp [h a rfl]

theorem getLast?_dropWhile {p : Char → Bool} (l : List Char)
    (h : l.dropWhile p ≠ []) : (l.dropWhile p).getLast? = l.getLast? := by
  induction l with
  | nil => rfl
  | cons a rest ih =>
    rw [List.dropWhile_cons]
    by_cases ha : p a = true
    · rw [if_pos ha]
      rw [List.dropWhile_cons, if_pos ha] at h
      have hrest : rest ≠ [] := by
        intro hr
        subst hr
        exact h rfl
      obtain ⟨b, rest2, rfl⟩ := List.exists_cons_of_ne_nil hrest
      rw [ih h, List.getLast?_cons_cons]
    · rw [if_neg ha]

theorem strip_head_not_ws (l : List Char) (c : Char)
    (h : (strip l).head? = some c) : isWs c = false := by
  unfold strip at h
  rw [List.head?_reverse] at h
  have hne : (l.dropWhile isWs).reverse.dropWhile isWs ≠ [] := by
    intro h0
    rw [h0] at h
    simp at h
  rw [getLast?_dropWhile _ hne, List.getLast?_reverse] at h
  exact dropWhile_head_false l c h

theorem strip_getLast_not_ws (l : List Char) (c : Char)
    (h : (strip l).getLast? = some c) : isWs c = false := by
  unfold strip at h
  rw [List.getLast?_reverse] at h
  exact dropWhile_head_false _ c h

theorem strip_id (l : List Char)
    (h1 : ∀ c, l.head? = some c → isWs c = false)
    (h2 : ∀ c, l.getLast? = some c → isWs c = false) : strip l = l := by
  unfold strip
  rw [dropWhile_eq_self_of_head l h1]
  rw [dropWhile_eq_self_of_head l.reverse
    (fun c hc => h2 c (by rwa [List.head?_reverse] at hc))]
  exact List.reverse_reverse l

/-- Clean text on an entity-free, tag-free string reduces to whitespace and
punctuation normalisation followed by strip. -/
theorem clean_text_plain (s : List Char) (ha : '&' ∉ s) (hl : '<' ∉ s) :
    clean_text s = strip (punctFix (collapseWs s)) := by
  unfold clean_text
  rw [unescapeModel_id s ha]
  rw [removeTags_id (punctFix (collapseWs s))]
  intro x hx hx2
  subst hx2
  rcases mem_punctFixAux [] (collapseWs s) '<' hx with h | h
  · simp at h
  · rcases mem_collapseWs s '<' h with h2 | h2
    · exact hl h2
    · simp at h2

theorem mem_clean_text_plain (s : List Char) (ha : '&' ∉ s) (hl : '<' ∉ s)
    (x : Char) (hx : x ∈ clean_text s) : x ∈ s ∨ x = ' ' := by
  rw [clean_text_plain s ha hl] at hx
  have h1 := mem_strip _ x hx
  rcases mem_punctFixAux [] (collapseWs s) x h1 with h | h
  · simp at h
  · exact mem_collapseWs s x h

/-- Core idempotence result: on strings with no `&` and no `<`, a second
pass of `clean_text` changes nothing. -/
theorem clean_text_idem_plain (s : List Char) (ha : '&' ∉ s) (hl : '<' ∉ s) :
    clean_text (clean_text s) = clean_text s := by
  have hr := clean_text_plain s ha hl
  set r := clean_text s with hrdef
  have hra : '&' ∉ r := by
    intro hmem
    rcases mem_clean_text_plain s ha hl '&' hmem with h | h
    · exact ha h
    · simp at h
  have hrl : '<' ∉ r := by
    intro hmem
    rcases mem_clean_text_plain s ha hl '<' hmem with h | h
    · exact hl h
    · simp at h
  obtain ⟨hW, hT, hP⟩ :=
    punctFix_norm (collapseWs s).length (collapseWs s) le_rfl
      (collapseWs_wssp s) (collapseWs_noTwo s)
  obtain ⟨u, v, hduv⟩ := strip_decomp (punctFix (collapseWs s))
  have hinf : ∃ x y, x ++ r ++ y = punctFix (collapseWs s) :=
    ⟨u, v, by rw [hr]; exact hduv.symm⟩
  have hWr : WsSp r := by
    intro c hc hwc
    refine hW c ?_ hwc
    rw [hr] at hc
    exact mem_strip _ c hc
  have hTr : NoTwoWs r := List.Chain'.infix hT hinf
  have hPr : NoWsPt r := List.Chain'.infix hP hinf
  have hhead : ∀ c, r.head? = some c → isWs c = false := by
    intro c hc
    rw [hr] at hc
    exact strip_head_not_ws _ c hc
  have hlast : ∀ c, r.getLast? = some c → isWs c = false := by
    intro c hc
    rw [hr] at hc
    exact strip_getLast_not_ws _ c hc
  show clean_text r = r
  unfold clean_text
  rw [unescapeModel_id r hra]
  rw [collapseWs_id r hWr hTr]
  rw [punctFix_id r.length r le_rfl hTr hPr]
  rw [removeTags_id r (fun x hx e => hrl (e ▸ hx))]
  exact strip_id r hhead hlast

theorem noGt_eq_true_iff (l : List Char) : noGt l = true ↔ '>' ∉ l := by
  induction l with
  | nil => simp [noGt]
  | cons c rest ih =>
    simp only [noGt, Bool.and_eq_true, Bool.not_eq_true', decide_eq_false_iff_not, ih,
      List.mem_cons, not_or]
    exact ⟨fun h => ⟨fun e => h.1 e.symm, h.2⟩, fun h => ⟨fun e => h.1 e.symm, h.2⟩⟩

theorem noGt_append_single (cs : List Char) (c : Char) (h : noGt cs = true)
    (hc : c ≠ '>') : noGt (cs ++ [c]) = true := by
  induction cs with
  | nil => simp [noGt, hc]
  | cons d r ih =>
    simp only [noGt, Bool.and_eq_true] at h
    simp only [List.cons_append, noGt, Bool.and_eq_true]
    exact ⟨h.1, ih h.2⟩

theorem noTagB_of_noGt (l : List Char) (h : noGt l = true) : noTagB l = true := by
  induction l with
  | nil => rfl
  | cons c rest ih =>
    simp only [noGt, Bool.and_eq_true] at h
    simp only [noTagB, Bool.and_eq_true]
    refine ⟨?_, ih h.2⟩
    split
    · simp only [headOkB]
      cases rest with
      | nil => rfl
      | cons d r2 =>
        have h2 : noGt (d :: r2) = true := h.2
        simp [h2]
    · rfl

theorem noTagB_eq_false_of_decomp (a c b : List Char) (hc : c ≠ [])
    (hgt : '>' ∉ c) : noTagB (a ++ '<' :: (c ++ '>' :: b)) = false := by
  induction a with
  | nil =>
    obtain ⟨e, c', rfl⟩ : ∃ e c', c = e :: c' := by
      cases c with
      | nil => exact absurd rfl hc
      | cons e c' => exact ⟨e, c', rfl⟩
    have he : e ≠ '>' := fun h => hgt (h ▸ List.mem_cons_self e c')
    simp only [List.nil_append, noTagB, if_pos rfl, headOkB, Bool.and_eq_false_iff]
    left
    have hmem : '>' ∈ e :: (c' ++ '>' :: b) := by
      simp
    have : noGt (e :: (c' ++ '>' :: b)) = false := by
      rw [← Bool.not_eq_true, noGt_eq_true_iff]
      simp
    simp [this, he]
  | cons x a' ih =>
    simp only [List.cons_append, noTagB, Bool.and_eq_false_iff]
    right
    exact ih

/-- Invariant proof: `removeTagsAux` never produces a `<[^>]+>` substring,
provided the buffer is empty or `'<'` followed by `>`-free content. -/
theorem noTagB_removeTagsAux (l : List Char) :
    ∀ buf : List Char, (buf = [] ∨ ∃ cs, buf = '<' :: cs ∧ noGt cs = true) →
      noTagB (removeTagsAux buf l) = true := by
  induction l with
  | nil =>
    intro buf hbuf
    rcases hbuf with rfl | ⟨cs, rfl, hcs⟩
    · rfl
    · show noTagB ('<' :: cs) = true
      simp only [noTagB, if_pos rfl, Bool.and_eq_true]
      refine ⟨?_, noTagB_of_noGt cs hcs⟩
      cases cs with
      | nil => rfl
      | cons d r2 => simp [headOkB, show noGt (d :: r2) = true from hcs]
  | cons c rest ih =>
    intro buf hbuf
    rcases hbuf with rfl | ⟨cs, rfl, hcs⟩
    · rw [removeTagsAux_nil_cons]
      by_cases hc : c = '<'
      · rw [if_pos hc]
        exact ih ['<'] (Or.inr ⟨[], rfl, rfl⟩)
      · rw [if_neg hc]
        simp only [noTagB, if_neg hc, Bool.true_and]
        exact ih [] (Or.inl rfl)
    · rw [removeTagsAux_cons_cons]
      by_cases hc : c = '>'
      · rw [if_pos hc]
        by_cases hlen : ('<' :: cs).length ≤ 1
        · rw [if_pos hlen]
          have hcs0 : cs = [] := by
            cases cs with
            | nil => rfl
            | cons d r => simp at hlen
          subst hcs0
          show noTagB ('<' :: '>' :: removeTagsAux [] rest) = true
          simp only [noTagB, if_pos rfl, headOkB, Bool.and_eq_true]
          refine ⟨by simp, ?_, ?_⟩
          · simp
          · exact ih [] (Or.inl rfl)
        · rw [if_neg hlen]
          exact ih [] (Or.inl rfl)
      · rw [if_neg hc]
        exact ih ('<' :: cs ++ [c]) (Or.inr ⟨cs ++ [c], rfl, noGt_append_single cs c hcs hc⟩)

theorem noTagB_removeTags (l : List Char) : noTagB (removeTags l) = true :=
  noTagB_removeTagsAux l [] (Or.inl rfl)


/-! ### Properties of speaker grouping -/

theorem cleanedPairs_cons (p : List Char × List Char)
    (t : List (List Char × List Char)) :
    cleanedPairs (p :: t) =
      if clean_text p.2 = [] then cleanedPairs t
      else (p.1, clean_text p.2) :: cleanedPairs t := by
  unfold cleanedPairs
  rw [List.map_cons, List.filter_cons]
  by_cases h : clean_text p.2 = []
  · simp [h]
  · simp [h]

theorem specTexts_cons (sp : List Char) (p : List Char × List Char)
    (t : List (List Char × List Char)) :
    specTexts sp (p :: t) =
      if clean_text p.2 = [] then specTexts sp t
      else if p.1 = sp then clean_text p.2 :: specTexts sp t
      else specTexts sp t := by
  unfold specTexts
  rw [cleanedPairs_cons]
  by_cases h : clean_text p.2 = []
  · simp [h]
  · rw [if_neg h, if_neg h, List.filterMap_cons]
    by_cases h2 : p.1 = sp
    · simp [h2]
    · simp [h2]

theorem organizeAux_skip (acc : List (List Char × List (List Char)))
    (p : List Char × List Char) (rest : List (List Char × List Char))
    (h : clean_text p.2 = []) :
    organizeAux acc (p :: rest) = organizeAux acc rest := by
  simp [organizeAux, h]

theorem organizeAux_insert (acc : List (List Char × List (List Char)))
    (p : List Char × List Char) (rest : List (List Char × List Char))
    (h : clean_text p.2 ≠ []) :
    organizeAux acc (p :: rest) =
      organizeAux (addUtt acc p.1 (clean_text p.2)) rest := by
  simp [organizeAux, h]

theorem groupTexts_cons (q : List Char) (g : List Char × List (List Char))
    (rest : List (List Char × List (List Char))) :
    groupTexts q (g :: rest) = if g.1 = q then g.2 else groupTexts q rest := rfl

theorem groupTexts_addUtt (acc : List (List Char × List (List Char)))
    (sp txt q : List Char) :
    groupTexts q (addUtt acc sp txt) =
      if q = sp then groupTexts q acc ++ [txt] else groupTexts q acc := by
  induction acc with
  | nil =>
    simp only [addUtt, groupTexts]
    by_cases h : q = sp
    · rw [if_pos h.symm, if_pos h]
      rfl
    · rw [if_neg fun e => h e.symm, if_neg h]
  | cons g rest ih =>
    by_cases hg : g.1 = sp
    · rw [show addUtt (g :: rest) sp txt = (g.1, g.2 ++ [txt]) :: rest by
        simp [addUtt, hg]]
      rw [groupTexts_cons, groupTexts_cons]
      by_cases hgq : g.1 = q
      · rw [if_pos hgq, if_pos (hgq.symm.trans hg), if_pos hgq]
      · rw [if_neg hgq]
        by_cases hq : q = sp
        · exact absurd (hg.trans hq.symm) hgq
        · rw [if_neg hq, if_neg hgq]
    · rw [show addUtt (g :: rest) sp txt = g :: addUtt rest sp txt by
        simp [addUtt, hg]]
      rw [groupTexts_cons, groupTexts_cons, ih]
      by_cases hq : q = sp
      · rw [if_pos hq, if_pos hq]
        by_cases hgq : g.1 = q
        · exact absurd (hgq.trans hq) hg
        · rw [if_neg hgq, if_neg hgq]
      · rw [if_neg hq, if_neg hq]

theorem organizeAux_groupTexts (t : List (List Char × List Char)) :
    ∀ acc q, groupTexts q (organizeAux acc t) =
      groupTexts q acc ++ specTexts q t := by
  induction t with
  | nil =>
    intro acc q
    simp [organizeAux, specTexts, cleanedPairs]
  | cons p rest ih =>
    intro acc q
    rw [specTexts_cons]
    by_cases h : clean_text p.2 = []
    · rw [organizeAux_skip acc p rest h, if_pos h, ih]
    · rw [organizeAux_insert acc p rest h, if_neg h, ih, groupTexts_addUtt]
      by_cases h2 : p.1 = q
      · rw [if_pos h2.symm, if_pos h2, List.append_assoc]
        rfl
      · rw [if_neg fun e => h2 e.symm, if_neg h2]

theorem flattenGroups_cons (g : List Char × List (List Char))
    (rest : List (List Char × List (List Char))) :
    flattenGroups (g :: rest) =
      g.2.map (fun x => (g.1, x)) ++ flattenGroups rest := rfl

theorem flattenGroups_addUtt (acc : List (List Char × List (List Char)))
    (sp txt : List Char) :
    List.Perm (flattenGroups (addUtt acc sp txt))
      (flattenGroups acc ++ [(sp, txt)]) := by
  induction acc with
  | nil => simp [addUtt, flattenGroups]
  | cons g rest ih =>
    by_cases hg : g.1 = sp
    · rw [show addUtt (g :: rest) sp txt = (g.1, g.2 ++ [txt]) :: rest by
        simp [addUtt, hg]]
      rw [flattenGroups_cons, flattenGroups_cons]
      simp only [List.map_append, List.map_cons, List.map_nil]
      rw [List.append_assoc, List.append_assoc]
      refine List.Perm.append_left _ ?_
      rw [hg]
      exact List.perm_append_comm
    · rw [show addUtt (g :: rest) sp txt = g :: addUtt rest sp txt by
        simp [addUtt, hg]]
      rw [flattenGroups_cons, flattenGroups_cons, List.append_assoc]
      exact List.Perm.append_left _ ih

theorem organizeAux_perm (t : List (List Char × List Char)) :
    ∀ acc, List.Perm (flattenGroups (organizeAux acc t))
      (flattenGroups acc ++ cleanedPairs t) := by
  induction t with
  | nil =>
    intro acc
    simp [organizeAux, cleanedPairs]
  | cons p rest ih =>
    intro acc
    rw [cleanedPairs_cons]
    by_cases h : clean_text p.2 = []
    · rw [organizeAux_skip acc p rest h, if_pos h]
      exact ih acc
    · rw [organizeAux_insert acc p rest h, if_neg h]
      refine List.Perm.trans (ih _) ?_
      refine List.Perm.trans
        (List.Perm.append_right (cleanedPairs rest) (flattenGroups_addUtt acc p.1 _)) ?_
      rw [List.append_assoc]
      exact List.Perm.refl _

theorem addUtt_keys_mem (acc : List (List Char × List (List Char)))
    (sp txt : List Char) (h : sp ∈ acc.map Prod.fst) :
    (addUtt acc sp txt).map Prod.fst = acc.map Prod.fst := by
  induction acc with
  | nil => simp at h
  | cons g rest ih =>
    by_cases hg : g.1 = sp
    · simp [addUtt, hg]
    · have h2 : sp ∈ rest.map Prod.fst := by
        rw [List.map_cons] at h
        rcases List.mem_cons.mp h with h3 | h3
        · exact absurd h3.symm hg
        · exact h3
      simp [addUtt, hg, ih h2]

theorem addUtt_keys_not_mem (acc : List (List Char × List (List Char)))
    (sp txt : List Char) (h : sp ∉ acc.map Prod.fst) :
    (addUtt acc sp txt).map Prod.fst = acc.map Prod.fst ++ [sp] := by
  induction acc with
  | nil => simp [addUtt]
  | cons g rest ih =>
    have hg : g.1 ≠ sp := by
      intro e
      exact h (by simp [← e])
    have h2 : sp ∉ rest.map Prod.fst := by
      intro hmem
      exact h (by simp [hmem])
    simp [addUtt, hg, ih h2]

theorem dedupFirstAux_cons (seen : List (List Char)) (x : List Char)
    (rest : List (List Char)) :
    dedupFirstAux seen (x :: rest) =
      if x ∈ seen then dedupFirstAux seen rest
      else x :: dedupFirstAux (seen ++ [x]) rest := rfl

theorem organizeAux_keys (t : List (List Char × List Char)) :
    ∀ acc, (organizeAux acc t).map Prod.fst =
      acc.map Prod.fst ++
        dedupFirstAux (acc.map Prod.fst) ((cleanedPairs t).map Prod.fst) := by
  induction t with
  | nil =>
    intro acc
    simp [organizeAux, cleanedPairs, dedupFirstAux]
  | cons p rest ih =>
    intro acc
    rw [cleanedPairs_cons]
    by_cases h : clean_text p.2 = []
    · rw [organizeAux_skip acc p rest h, if_pos h, ih]
    · rw [organizeAux_insert acc p rest h, if_neg h, List.map_cons]
      rw [dedupFirstAux_cons]
      by_cases hmem : p.1 ∈ acc.map Prod.fst
      · rw [if_pos hmem, ih, addUtt_keys_mem acc p.1 _ hmem]
      · rw [if_neg hmem, ih, addUtt_keys_not_mem acc p.1 _ hmem]
        rw [List.append_assoc]
        rfl

theorem cleanedPairs_snd_ne (t : List (List Char × List Char)) :
    ∀ q ∈ cleanedPairs t, q.2 ≠ [] := by
  intro q hq
  have h := List.of_mem_filter hq
  simpa using h

theorem mem_flattenGroups (gs : List (List Char × List (List Char)))
    (g : List Char × List (List Char)) (x : List Char)
    (hg : g ∈ gs) (hx : x ∈ g.2) : (g.1, x) ∈ flattenGroups gs := by
  unfold flattenGroups
  rw [List.mem_flatMap]
  exact ⟨g, hg, List.mem_map.mpr ⟨x, hx, rfl⟩⟩

theorem organize_nonempty (t : List (List Char × List Char)) :
    ∀ g ∈ organize_by_speaker t, ∀ x ∈ g.2, x ≠ [] := by
  intro g hg x hx
  have hmem : (g.1, x) ∈ flattenGroups (organize_by_speaker t) :=
    mem_flattenGroups _ g x hg hx
  have hperm := organizeAux_perm t []
  have h2 : (g.1, x) ∈ flattenGroups ([] : List (List Char × List (List Char)))
      ++ cleanedPairs t := hperm.mem_iff.mp hmem
  have h3 : (g.1, x) ∈ cleanedPairs t := by simpa [flattenGroups] using h2
  exact cleanedPairs_snd_ne t (g.1, x) h3

/-! ### Characterisations of the renderers, the extractor and the batch -/

theorem foldl_appendish {α β : Type} (step : List β → α → List β)
    (f : α → List β) (hstep : ∀ acc x, step acc x = acc ++ f x) :
    ∀ (l : List α) (acc : List β), l.foldl step acc = acc ++ l.flatMap f := by
  intro l
  induction l with
  | nil => intro acc; simp
  | cons x rest ih =>
    intro acc
    rw [List.foldl_cons, hstep, ih, List.flatMap_cons, List.append_assoc]

theorem flatMap_toList_eq_filterMap {α β : Type} (f : α → Option β)
    (l : List α) : (l.flatMap fun x => (f x).toList) = l.filterMap f := by
  induction l with
  | nil => rfl
  | cons x rest ih =>
    rw [List.flatMap_cons, List.filterMap_cons]
    cases f x <;> simp [ih]

theorem chronBody_eq (t : List (List Char × List Char)) :
    chronBody t = (List.enumFrom 1 t).flatMap fun x =>
      if clean_text x.2.2 = [] then []
      else [natChars x.1 ++ (". ").toList ++ x.2.1 ++ (": ").toList ++
        clean_text x.2.2, []] := by
  have h := foldl_appendish
    (fun acc x =>
      if clean_text x.2.2 = [] then acc
      else acc ++ [natChars x.1 ++ (". ").toList ++ x.2.1 ++ (": ").toList ++
        clean_text x.2.2, []])
    (fun x =>
      if clean_text x.2.2 = [] then []
      else [natChars x.1 ++ (". ").toList ++ x.2.1 ++ (": ").toList ++
        clean_text x.2.2, []])
    (fun acc x => by by_cases hx : clean_text x.2.2 = [] <;> simp [hx])
    (List.enumFrom 1 t) []
  simpa [chronBody] using h

theorem format_chronological_lines_eq (now fname : List Char)
    (t : List (List Char × List Char)) :
    format_chronological_lines now fname t =
      chronHeader now fname ++ chronBody t := by
  have h := foldl_appendish
    (fun acc x =>
      if clean_text x.2.2 = [] then acc
      else acc ++ [natChars x.1 ++ (". ").toList ++ x.2.1 ++ (": ").toList ++
        clean_text x.2.2, []])
    (fun x =>
      if clean_text x.2.2 = [] then []
      else [natChars x.1 ++ (". ").toList ++ x.2.1 ++ (": ").toList ++
        clean_text x.2.2, []])
    (fun acc x => by by_cases hx : clean_text x.2.2 = [] <;> simp [hx])
    (List.enumFrom 1 t) (chronHeader now fname)
  rw [format_chronological_lines, h, chronBody_eq]

theorem groupBody_flat (ds : List (List Char)) :
    groupBody ds = (List.enumFrom 1 ds).flatMap fun x =>
      if clean_text x.2 = [] then []
      else [natChars x.1 ++ (". ").toList ++ clean_text x.2] := by
  have h := foldl_appendish
    (fun acc x =>
      if clean_text x.2 = [] then acc
      else acc ++ [natChars x.1 ++ (". ").toList ++ clean_text x.2])
    (fun x =>
      if clean_text x.2 = [] then []
      else [natChars x.1 ++ (". ").toList ++ clean_text x.2])
    (fun acc x => by by_cases hx : clean_text x.2 = [] <;> simp [hx])
    (List.enumFrom 1 ds) []
  simpa [groupBody] using h

theorem groupBody_eq (ds : List (List Char)) :
    groupBody ds = (List.enumFrom 1 ds).filterMap fun x =>
      if clean_text x.2 = [] then none
      else some (natChars x.1 ++ (". ").toList ++ clean_text x.2) := by
  rw [groupBody_flat]
  rw [show (fun (x : Nat × List Char) =>
      if clean_text x.2 = [] then ([] : List (List Char))
      else [natChars x.1 ++ (". ").toList ++ clean_text x.2]) =
    (fun x => (if clean_text x.2 = [] then none
      else some (natChars x.1 ++ (". ").toList ++ clean_text x.2) :
        Option (List Char)).toList) from
    funext fun x => by by_cases hx : clean_text x.2 = [] <;> simp [hx]]
  rw [flatMap_toList_eq_filterMap]

theorem format_output_lines_eq (now fname : List Char)
    (speakers : List (List Char × List (List Char))) :
    format_output_lines now fname speakers =
      groupHeader now fname ++ speakers.flatMap fun g =>
        (("SPEAKER: ").toList ++ g.1) :: List.replicate 40 '-' ::
          (groupBody g.2 ++ [[]]) := by
  have h := foldl_appendish
    (fun acc (g : List Char × List (List Char)) =>
      ((List.enumFrom 1 g.2).foldl (fun a2 x =>
        if clean_text x.2 = [] then a2
        else a2 ++ [natChars x.1 ++ (". ").toList ++ clean_text x.2])
        (acc ++ [("SPEAKER: ").toList ++ g.1, List.replicate 40 '-'])) ++ [[]])
    (fun g => (("SPEAKER: ").toList ++ g.1) :: List.replicate 40 '-' ::
      (groupBody g.2 ++ [[]]))
    (fun acc g => by
      have hinner := foldl_appendish
        (fun a2 (x : Nat × List Char) =>
          if clean_text x.2 = [] then a2
          else a2 ++ [natChars x.1 ++ (". ").toList ++ clean_text x.2])
        (fun x =>
          if clean_text x.2 = [] then []
          else [natChars x.1 ++ (". ").toList ++ clean_text x.2])
        (fun a2 x => by by_cases hx : clean_text x.2 = [] <;> simp [hx])
        (List.enumFrom 1 g.2)
        (acc ++ [("SPEAKER: ").toList ++ g.1, List.replicate 40 '-'])
      dsimp only
      rw [hinner, ← groupBody_flat]
      simp [List.append_assoc])
    speakers (groupHeader now fname)
  rw [format_output_lines, h]

theorem enumFrom_get_mem {α : Type} (l : List α) :
    ∀ (n i : Nat) (h : i < l.length),
      (n + i, l.get ⟨i, h⟩) ∈ List.enumFrom n l := by
  induction l with
  | nil => intro n i h; simp at h
  | cons x rest ih =>
    intro n i h
    match i with
    | 0 => simp [List.enumFrom]
    | i+1 =>
      have h2 : i < rest.length := by simpa using h
      have h3 := ih (n+1) i h2
      rw [show n + (i+1) = (n+1) + i by omega]
      exact List.mem_cons_of_mem _ (by simpa using h3)

theorem mem_dedupFirstAux (l : List (List Char)) :
    ∀ (seen : List (List Char)) (x : List Char),
      x ∈ dedupFirstAux seen l → x ∈ l := by
  induction l with
  | nil =>
    intro seen x h
    simp [dedupFirstAux] at h
  | cons y rest ih =>
    intro seen x h
    rw [dedupFirstAux_cons] at h
    by_cases hy : y ∈ seen
    · rw [if_pos hy] at h
      exact List.mem_cons_of_mem y (ih seen x h)
    · rw [if_neg hy] at h
      rcases List.mem_cons.mp h with h2 | h2
      · simp [h2]
      · exact List.mem_cons_of_mem y (ih _ x h2)

theorem cleanedPairs_keys_sub (t : List (List Char × List Char)) :
    ∀ sp ∈ (cleanedPairs t).map Prod.fst, sp ∈ t.map Prod.fst := by
  intro sp hsp
  obtain ⟨q, hq, rfl⟩ := List.mem_map.mp hsp
  have h2 := List.mem_of_mem_filter hq
  obtain ⟨p, hp, rfl⟩ := List.mem_map.mp h2
  exact List.mem_map.mpr ⟨p, hp, rfl⟩

theorem organize_keys_eq (t : List (List Char × List Char)) :
    (organize_by_speaker t).map Prod.fst =
      dedupFirst ((cleanedPairs t).map Prod.fst) := by
  have h := organizeAux_keys t []
  simpa [organize_by_speaker, dedupFirst] using h

theorem organize_keys_sub (t : List (List Char × List Char)) :
    ∀ sp ∈ (organize_by_speaker t).map Prod.fst, sp ∈ t.map Prod.fst := by
  intro sp hsp
  rw [organize_keys_eq] at hsp
  exact cleanedPairs_keys_sub t sp
    (mem_dedupFirstAux ((cleanedPairs t).map Prod.fst) [] sp hsp)

theorem extract_eq_filterMap (doc : List Char) :
    extract_speaker_and_text doc =
      (findParagraphs doc).filterMap paraUtterance := by
  have h := foldl_appendish
    (fun tr p =>
      match findSpeaker p with
      | none => tr
      | some name =>
        if findDialogues p = [] then tr
        else tr ++ [(strip name, joinSpaces (findDialogues p))])
    (fun p => (paraUtterance p).toList)
    (fun tr p => by
      cases hf : findSpeaker p with
      | none => simp [paraUtterance, hf]
      | some name =>
        by_cases hd : findDialogues p = [] <;> simp [paraUtterance, hf, hd])
    (findParagraphs doc) []
  rw [extract_speaker_and_text, h, flatMap_toList_eq_filterMap]
  rfl

theorem process_all_files_shift (now : List Char) :
    ∀ (files : List (List Char × List Char)) (s f : Nat)
      (o : List (List Char × (List Char × List Char))),
      files.foldl (processStep now) (s, f, o) =
        (s + (process_all_files now files).1,
         f + (process_all_files now files).2.1,
         o ++ (process_all_files now files).2.2) := by
  intro files
  induction files with
  | nil =>
    intro s f o
    simp [process_all_files]
  | cons g rest ih =>
    intro s f o
    rw [List.foldl_cons]
    have hall : process_all_files now (g :: rest) =
        rest.foldl (processStep now) (processStep now (0, 0, []) g) := by
      rw [process_all_files, List.foldl_cons]
    cases hg : process_file now g.1 g.2 with
    | some outs =>
      have hstep : ∀ (r : Nat × Nat × List (List Char × (List Char × List Char))),
          processStep now r g = (r.1 + 1, r.2.1, r.2.2 ++ [(g.1, outs)]) := by
        intro r
        simp [processStep, hg]
      rw [hstep, ih, hall, hstep, ih]
      simp [Nat.add_assoc, Nat.add_comm, Nat.add_left_comm, List.append_assoc]
    | none =>
      have hstep : ∀ (r : Nat × Nat × List (List Char × (List Char × List Char))),
          processStep now r g = (r.1, r.2.1 + 1, r.2.2) := by
        intro r
        simp [processStep, hg]
      rw [hstep, ih, hall, hstep, ih]
      simp [Nat.add_assoc, Nat.add_comm, Nat.add_left_comm, List.append_assoc]

/-! ### Claim theorems -/

/-- Claim C1, counterexample: for the transcript
`[("A", " "), ("B", "hi")]` the first utterance cleans to the empty string
and is skipped, yet the emitted line reads `2. B: hi` — the running index
is the 1-based position in the full transcript — while the claim's
renumbering (only emitted lines counted, starting at 1) would read
`1. B: hi`.  The code therefore violates the claim as stated. -/
theorem chronological_running_index_cex :
    chronBody [(("A").toList, (" ").toList), (("B").toList, ("hi").toList)] =
      [("2. B: hi").toList, []] ∧
    specRenumberedChronBody
      [(("A").toList, (" ").toList), (("B").toList, ("hi").toList)] =
      [("1. B: hi").toList, []] ∧
    chronBody [(("A").toList, (" ").toList), (("B").toList, ("hi").toList)] ≠
      specRenumberedChronBody
        [(("A").toList, (" ").toList), (("B").toList, ("hi").toList)] :=
  ⟨by decide, by decide, by decide⟩

/-- Claim C1, amended: in the chronological rendering the running index
printed before an emitted line is the 1-based position of that utterance in
the full transcript (`enumerate(transcript, 1)`); utterances whose cleaned
text is empty are skipped but still consume their index, leaving gaps in
the numbering, and each emitted line is followed by one blank line. -/
theorem chronological_running_index_amended (now fname : List Char)
    (t : List (List Char × List Char)) :
    format_chronological_lines now fname t =
      chronHeader now fname ++ chronBody t ∧
    chronBody t = (List.enumFrom 1 t).flatMap fun x =>
      if clean_text x.2.2 = [] then []
      else [natChars x.1 ++ (". ").toList ++ x.2.1 ++ (": ").toList ++
        clean_text x.2.2, []] :=
  ⟨format_chronological_lines_eq now fname t, chronBody_eq t⟩

/-- Claim C2, counterexample: `clean_text` is not idempotent.  Entity
decoding exposes a new entity (`&amp;amp;` cleans to `&amp;`, which cleans
again to `&`), and tag stripping can create a new whitespace-punctuation
adjacency (`a <b> .` cleans to `a .`, which cleans again to `a.`). -/
theorem clean_text_idempotent_cex :
    clean_text (clean_text ("&amp;amp;").toList) ≠
      clean_text (("&amp;amp;").toList) ∧
    clean_text (clean_text ("a <b> .").toList) ≠
      clean_text (("a <b> .").toList) ∧
    clean_text (("&amp;amp;").toList) = ("&amp;").toList ∧
    clean_text (clean_text ("&amp;amp;").toList) = ("&").toList :=
  ⟨by decide, by decide, by decide, by decide⟩

/-- Claim C2, amended: `clean_text` is idempotent on every string that
contains neither `&` nor `<` — i.e. whenever entity decoding and tag
stripping cannot fire, whitespace collapapsing, punctuation spacing and
stripping reach a fixed point after one pass. -/
theorem clean_text_idempotent_on_plain (s : List Char) (ha : '&' ∉ s)
    (hl : '<' ∉ s) : clean_text (clean_text s) = clean_text s :=
  clean_text_idem_plain s ha hl

/-- Claim C2 witness: a concrete entity-free, tag-free string on which the
amended idempotence theorem applies. -/
theorem clean_text_idempotent_on_plain_witness :
    ('&' ∉ ("a  b ,  c .").toList ∧ '<' ∉ ("a  b ,  c .").toList) ∧
    clean_text (clean_text ("a  b ,  c .").toList) =
      clean_text ("a  b ,  c .").toList :=
  ⟨⟨by decide, by decide⟩,
    clean_text_idempotent_on_plain ("a  b ,  c .").toList (by decide) (by decide)⟩

/-- Claim C3, counterexample: `format_output` re-cleans every stored
dialogue before emitting it.  The utterance `&amp;lt;x&amp;gt;` is stored in
its group as `&lt;x&gt;` (non-empty), but the second cleaning pass turns it
into the empty string: the entry is dropped from the rendered group and the
remaining utterance is printed as `2. hi` — the group body neither emits
every utterance nor numbers consecutively from 1. -/
theorem grouped_numbering_cex :
    organize_by_speaker [(("A").toList, ("&amp;lt;x&amp;gt;").toList),
        (("A").toList, ("hi").toList)] =
      [(("A").toList, [("&lt;x&gt;").toList, ("hi").toList])] ∧
    groupBody [("&lt;x&gt;").toList, ("hi").toList] = [("2. hi").toList] ∧
    groupBody [("&lt;x&gt;").toList, ("hi").toList] ≠
      specAllGroupBody [("&lt;x&gt;").toList, ("hi").toList] :=
  ⟨by decide, by decide, by decide⟩

/-- Claim C3, amended: within a speaker group, exactly the utterances whose
re-cleaned text is non-empty are emitted; the printed number is the
utterance's 1-based position in the group list, so entries whose stored
text cleans to empty on the second pass are dropped and leave gaps. -/
theorem grouped_numbering_amended (now fname : List Char)
    (speakers : List (List Char × List (List Char))) :
    format_output_lines now fname speakers = groupHeader now fname ++
      (speakers.flatMap fun g => (("SPEAKER: ").toList ++ g.1) ::
        List.replicate 40 '-' :: (groupBody g.2 ++ [[]])) ∧
    ∀ ds, groupBody ds = (List.enumFrom 1 ds).filterMap fun x =>
      if clean_text x.2 = [] then none
      else some (natChars x.1 ++ (". ").toList ++ clean_text x.2) :=
  ⟨format_output_lines_eq now fname speakers, groupBody_eq⟩

/-- Claim C4: speaker grouping is order-preserving and complete — every
stored text is non-empty, the multiset of (speaker, text) pairs of the
groups equals the multiset of non-empty cleaned utterances, speakers appear
in first-appearance order, and each group lists its speaker's cleaned
non-empty utterances in transcript order. -/
theorem organize_by_speaker_correct (t : List (List Char × List Char)) :
    (∀ g ∈ organize_by_speaker t, ∀ x ∈ g.2, x ≠ []) ∧
    List.Perm (flattenGroups (organize_by_speaker t)) (cleanedPairs t) ∧
    (organize_by_speaker t).map Prod.fst =
      dedupFirst ((cleanedPairs t).map Prod.fst) ∧
    ∀ sp, groupTexts sp (organize_by_speaker t) = specTexts sp t := by
  refine ⟨organize_nonempty t, ?_, organize_keys_eq t, ?_⟩
  · have h := organizeAux_perm t []
    simpa [organize_by_speaker, flattenGroups] using h
  · intro sp
    have h := organizeAux_groupTexts t [] sp
    simpa [organize_by_speaker, groupTexts] using h

/-- Claim C4 witness: the grouping theorem applied to a one-utterance
transcript. -/
theorem organize_by_speaker_correct_witness :
    ("hi").toList ≠ [] ∧
    groupTexts ("A").toList
        (organize_by_speaker [(("A").toList, ("hi").toList)]) =
      specTexts ("A").toList [(("A").toList, ("hi").toList)] :=
  ⟨(organize_by_speaker_correct [(("A").toList, ("hi").toList)]).1
      (("A").toList, [("hi").toList]) (by decide) (("hi").toList) (by decide),
    (organize_by_speaker_correct [(("A").toList, ("hi").toList)]).2.2.2
      ("A").toList⟩

/-- Claim C5: the extractor appends one utterance per paragraph exactly when
the speaker pattern matches and at least one clipped non-speaker dialogue
fragment is found; the text is the fragments joined with single spaces, the
speaker is the stripped captured name, and the output keeps segment order
(`filterMap` over the paragraphs in source order). -/
theorem extract_speaker_and_text_characterization (doc : List Char) :
    extract_speaker_and_text doc =
      (findParagraphs doc).filterMap paraUtterance ∧
    ∀ p, paraUtterance p =
      match findSpeaker p with
      | none => none
      | some name =>
        if findDialogues p = [] then none
        else some (strip name, joinSpaces (findDialogues p)) :=
  ⟨extract_eq_filterMap doc, fun _ => rfl⟩

/-- Claim C6: no output of `clean_text` contains a markup-tag substring
`<c>` with non-empty `>`-free content `c`: whenever the cleaned text splits
as `a ++ '<' :: c ++ '>' :: b`, the content `c` is empty or itself contains
`>` (so no `<[^>]+>` match remains). -/
theorem clean_text_no_tags (s a c b : List Char)
    (h : clean_text s = a ++ '<' :: (c ++ '>' :: b)) : c = [] ∨ '>' ∈ c := by
  by_contra hcon
  rw [not_or] at hcon
  obtain ⟨hc, hgt⟩ := hcon
  set X := removeTags (punctFix (collapseWs (unescapeModel s))) with hX
  obtain ⟨u, v, hduv⟩ := strip_decomp X
  have hXdec : X = (u ++ a) ++ '<' :: (c ++ '>' :: (b ++ v)) := by
    rw [hduv, show strip X = clean_text s from rfl, h]
    simp [List.append_assoc]
  have hfalse := noTagB_eq_false_of_decomp (u ++ a) c (b ++ v) hc hgt
  rw [← hXdec] at hfalse
  have htrue := noTagB_removeTags (punctFix (collapseWs (unescapeModel s)))
  rw [← hX, hfalse] at htrue
  exact absurd htrue (by simp)

/-- Claim C6 witness: applied to `a<>b`, whose cleaned form still contains
`<` directly followed by `>` (content empty — not a tag). -/
theorem clean_text_no_tags_witness :
    ([] : List Char) = [] ∨ '>' ∈ ([] : List Char) :=
  clean_text_no_tags ("a<>b").toList ("a").toList [] ("b").toList (by decide)

/-- Claim C7: whitespace before punctuation is removed and whitespace runs
collapse — `clean("word .") = "word."` and
`clean("word,  next") = "word, next"`. -/
theorem clean_text_punctuation_spacing :
    clean_text ("word .").toList = ("word.").toList ∧
    clean_text ("word,  next").toList = ("word, next").toList :=
  ⟨by decide, by decide⟩

/-- Claim C8: when extraction yields no utterances, or grouping yields no
non-empty speaker groups, per-file processing returns the soft failure
`none` (no output files), and in a batch the failing file only adds one to
the failure count — the files before and after it are processed exactly as
they would be on their own. -/
theorem process_file_soft_failure (now fname content : List Char)
    (pre post : List (List Char × List Char))
    (h : extract_speaker_and_text content = [] ∨
      organize_by_speaker (extract_speaker_and_text content) = []) :
    process_file now fname content = none ∧
    process_all_files now (pre ++ (fname, content) :: post) =
      ((process_all_files now pre).1 + (process_all_files now post).1,
       (process_all_files now pre).2.1 + 1 + (process_all_files now post).2.1,
       (process_all_files now pre).2.2 ++ (process_all_files now post).2.2) := by
  have hnone : process_file now fname content = none := by
    rcases h with h | h
    · simp [process_file, h]
    · by_cases ht : extract_speaker_and_text content = []
      · simp [process_file, ht]
      · simp [process_file, ht, h]
  refine ⟨hnone, ?_⟩
  rw [process_all_files, List.foldl_append, List.foldl_cons]
  rw [show (pre.foldl (processStep now) (0, 0, [])) =
    process_all_files now pre from rfl]
  rw [show processStep now (process_all_files now pre) (fname, content) =
    ((process_all_files now pre).1, (process_all_files now pre).2.1 + 1,
     (process_all_files now pre).2.2) by simp [processStep, hnone]]
  exact process_all_files_shift now post (process_all_files now pre).1
    ((process_all_files now pre).2.1 + 1) (process_all_files now pre).2.2

/-- Claim C8 witness: a content with no matching paragraph is a handled
per-file failure. -/
theorem process_file_soft_failure_witness :
    (extract_speaker_and_text ("x").toList = [] ∨
      organize_by_speaker (extract_speaker_and_text ("x").toList) = []) ∧
    process_file ("n").toList ("f").toList ("x").toList = none :=
  ⟨Or.inl (by decide),
    (process_file_soft_failure ("n").toList ("f").toList ("x").toList [] []
      (Or.inl (by decide))).1⟩

set_option maxRecDepth 80000 in
/-- Claim C9: a segment whose speaker span text is a single space still
contributes an utterance — the captured name strips to the empty string —
so the grouped rendering contains a bare `SPEAKER: ` header line keyed by
the empty speaker name. -/
theorem whitespace_speaker_empty_name :
    extract_speaker_and_text whitespaceSpeakerDoc = [([], ("hi").toList)] ∧
    organize_by_speaker (extract_speaker_and_text whitespaceSpeakerDoc) =
      [([], [("hi").toList])] ∧
    (("SPEAKER: ").toList) ∈ format_output_lines ("now").toList ("f").toList
      (organize_by_speaker (extract_speaker_and_text whitespaceSpeakerDoc)) :=
  ⟨by decide, by decide, by decide⟩

/-- Claim C10: cleaning applies to dialogue text only, never to speaker
names.  The chronological body re-renders each emitted utterance as
`index. speaker: cleaned-text` with the speaker component verbatim from the
transcript, every emitted line's speaker is a verbatim transcript speaker,
and every speaker key of the grouped rendering is a verbatim transcript
speaker — HTML entities and internal whitespace in names survive
unchanged. -/
theorem speaker_names_not_cleaned (now fname : List Char)
    (t : List (List Char × List Char)) :
    format_chronological_lines now fname t =
      chronHeader now fname ++ chronBody t ∧
    (∀ (i : Nat) (h : i < t.length), clean_text (t.get ⟨i, h⟩).2 ≠ [] →
      (natChars (i + 1) ++ (". ").toList ++ (t.get ⟨i, h⟩).1 ++
        (": ").toList ++ clean_text (t.get ⟨i, h⟩).2) ∈ chronBody t) ∧
    ∀ sp ∈ (organize_by_speaker t).map Prod.fst, sp ∈ t.map Prod.fst := by
  refine ⟨format_chronological_lines_eq now fname t, ?_, organize_keys_sub t⟩
  intro i h hne
  rw [chronBody_eq]
  have hmem : (1 + i, t.get ⟨i, h⟩) ∈ List.enumFrom 1 t := enumFrom_get_mem t 1 i h
  rw [Nat.add_comm 1 i] at hmem
  rw [List.mem_flatMap]
  refine ⟨(i + 1, t.get ⟨i, h⟩), hmem, ?_⟩
  dsimp only
  rw [if_neg hne]
  exact List.mem_cons_self _ _

/-- Claim C10 witness: a speaker name containing the entity text `&amp;`
appears verbatim in the chronological body and among the group keys. -/
theorem speaker_names_not_cleaned_witness :
    (("1. A&amp;B: hi").toList) ∈
      chronBody [(("A&amp;B").toList, ("hi").toList)] ∧
    ("A&amp;B").toList ∈
      ([(("A&amp;B").toList, ("hi").toList)].map Prod.fst) :=
  ⟨by
    have h := (speaker_names_not_cleaned ("n").toList ("f").toList
      [(("A&amp;B").toList, ("hi").toList)]).2.1 0 (by decide) (by decide)
    simpa using h,
   (speaker_names_not_cleaned ("n").toList ("f").toList
      [(("A&amp;B").toList, ("hi").toList)]).2.2 (("A&amp;B").toList) (by decide)⟩

end TranscriptCleaner
